import Mathlib

/-!
Verification of the arc-spa-csp environment-resolution and HTML-detection
pipeline.  The TypeScript sources are shallowly embedded: pure functions
become Lean functions, filesystem access becomes an explicit read-only
filesystem value, JSON parsing (declared an external collaborator by the
specification) becomes an oracle parameter, and the process environment is
threaded explicitly.  Paths are modelled as canonical slash-separated
strings relative to the working directory.
-/

/-- JS regex word character class: A-Z, a-z, 0-9 and underscore. -/
def wordChar (c : Char) : Bool := c.isAlpha || c.isDigit || c = '_'

/-- JS regex whitespace class, restricted to the ASCII whitespace characters. -/
def wsChar (c : Char) : Bool :=
  c = ' ' || c = '\t' || c = '\n' || c = '\r' || c = Char.ofNat 11 || c = Char.ofNat 12

/-- The single-quote character, built from its code point. -/
def sqc : Char := Char.ofNat 39

/-- A one-character string holding a single quote. -/
def sqs : String := ⟨[sqc]⟩

/-- Quote character class used by several source regexes. -/
def isQuote (c : Char) : Bool := c = '"' || c = sqc

/-- JS object lookup on an association-list model of a string-keyed object. -/
def objGet {α : Type} : List (String × α) → String → Option α
  | [], _ => none
  | (k, v) :: rest, key => if k = key then some v else objGet rest key

/-- JS property assignment: replace the value of an existing key in place,
otherwise append the new key at the end, matching object insertion order. -/
def objSet {α : Type} : List (String × α) → String → α → List (String × α)
  | [], key, val => [(key, val)]
  | (k, v) :: rest, key, val =>
    if k = key then (k, val) :: rest else (k, v) :: objSet rest key val

/-- JS Object.assign target src: copy every entry of src onto target in order. -/
def objAssign {α : Type} (target src : List (String × α)) : List (String × α) :=
  src.foldl (fun acc e => objSet acc e.fst e.snd) target

/-- The keys of an object model are pairwise distinct, as in a real JS object. -/
def NodupKeys {α : Type} (o : List (String × α)) : Prop := (o.map Prod.fst).Nodup

theorem objGet_objSet_self {α : Type} (o : List (String × α)) (k : String) (v : α) :
    objGet (objSet o k v) k = some v := by
  induction o with
  | nil => simp [objSet, objGet]
  | cons e rest ih =>
    obtain ⟨k0, v0⟩ := e
    by_cases h : k0 = k
    · simp [objSet, h, objGet]
    · simp [objSet, h, objGet, ih]

theorem objGet_objSet_ne {α : Type} (o : List (String × α)) (k k' : String) (v : α)
    (h : k' ≠ k) : objGet (objSet o k v) k' = objGet o k' := by
  induction o with
  | nil =>
    have h2 : ¬ k = k' := fun hh => h hh.symm
    simp [objSet, objGet, h2]
  | cons e rest ih =>
    obtain ⟨k0, v0⟩ := e
    by_cases h0 : k0 = k
    · subst h0
      have h2 : ¬ k0 = k' := fun hh => h hh.symm
      simp [objSet, objGet, h2]
    · by_cases h1 : k0 = k'
      · subst h1
        simp [objSet, h0, objGet]
      · simp [objSet, h0, objGet, h1, ih]

theorem mem_keys_objSet {α : Type} (o : List (String × α)) (k key : String) (v : α) :
    k ∈ (objSet o key v).map Prod.fst → k ∈ o.map Prod.fst ∨ k = key := by
  induction o with
  | nil =>
    intro h
    simp only [objSet, List.map_cons, List.map_nil, List.mem_cons] at h
    rcases h with h | h
    · exact Or.inr h
    · exact absurd h (List.not_mem_nil k)
  | cons e rest ih =>
    obtain ⟨k0, v0⟩ := e
    by_cases h0 : k0 = key
    · subst h0
      intro h
      simp only [objSet, eq_self_iff_true, if_true, List.map_cons, List.mem_cons] at h
      obtain h1 | h1 := h
      · exact Or.inr h1
      · exact Or.inl (List.mem_cons_of_mem _ h1)
    · intro h
      simp only [objSet, if_neg h0, List.map_cons, List.mem_cons] at h
      obtain h1 | h1 := h
      · exact Or.inl (by simp [h1])
      · rcases ih h1 with h2 | h2
        · exact Or.inl (List.mem_cons_of_mem _ h2)
        · exact Or.inr h2

theorem nodupKeys_objSet {α : Type} (o : List (String × α)) (key : String) (v : α)
    (h : NodupKeys o) : NodupKeys (objSet o key v) := by
  induction o with
  | nil => simp [NodupKeys, objSet]
  | cons e rest ih =>
    obtain ⟨k0, v0⟩ := e
    simp only [NodupKeys, List.map_cons, List.nodup_cons] at h
    by_cases h0 : k0 = key
    · simp only [NodupKeys, objSet, if_pos h0, List.map_cons, List.nodup_cons]
      exact h
    · have tail := ih h.2
      simp only [NodupKeys, objSet, if_neg h0, List.map_cons, List.nodup_cons]
      refine ⟨fun hmem => ?_, tail⟩
      rcases mem_keys_objSet rest k0 key v hmem with h2 | h2
      · exact h.1 h2
      · exact h0 h2

theorem objGet_eq_none_of_not_mem {α : Type} (o : List (String × α)) (k : String)
    (h : k ∉ o.map Prod.fst) : objGet o k = none := by
  induction o with
  | nil => simp [objGet]
  | cons e rest ih =>
    obtain ⟨k0, v0⟩ := e
    simp only [List.map_cons, List.mem_cons] at h
    push_neg at h
    have h2 : ¬ k0 = k := fun hh => h.1 hh.symm
    simp [objGet, h2, ih h.2]

theorem objGet_objAssign {α : Type} (t src : List (String × α)) (k : String)
    (hs : NodupKeys src) :
    objGet (objAssign t src) k = (objGet src k).or (objGet t k) := by
  induction src generalizing t with
  | nil => simp [objAssign, objGet]
  | cons e rest ih =>
    obtain ⟨k0, v0⟩ := e
    simp only [NodupKeys, List.map_cons, List.nodup_cons] at hs
    have step : objAssign t ((k0, v0) :: rest) = objAssign (objSet t k0 v0) rest := by
      simp [objAssign]
    rw [step, ih (objSet t k0 v0) hs.2]
    by_cases h : k0 = k
    · subst h
      have hnone : objGet rest k0 = none :=
        objGet_eq_none_of_not_mem rest k0 hs.1
      simp [objGet, hnone, objGet_objSet_self]
    · simp [objGet, h, objGet_objSet_ne t k0 k v0 (fun hh => h hh.symm)]

theorem nodupKeys_foldl {β : Type} (step : List (String × String) → β → List (String × String))
    (hstep : ∀ a x, NodupKeys a → NodupKeys (step a x)) :
    ∀ (l : List β) (acc : List (String × String)), NodupKeys acc →
      NodupKeys (l.foldl step acc) := by
  intro l
  induction l with
  | nil => intro acc h; simpa using h
  | cons x xs ih => intro acc h; exact ih (step acc x) (hstep acc x h)

/-- Case-insensitive literal match (ASCII folding): returns the rest of
the input after the pattern. -/
def ciM : List Char → List Char → Option (List Char)
  | [], l => some l
  | _ :: _, [] => none
  | p :: ps, c :: cs => if c.toLower = p.toLower then ciM ps cs else none

/-- Case-sensitive literal match, for regexes without the i flag. -/
def litM : List Char → List Char → Option (List Char)
  | [], l => some l
  | _ :: _, [] => none
  | p :: ps, c :: cs => if c = p then litM ps cs else none

theorem ciM_length {p l r : List Char} (h : ciM p l = some r) :
    r.length + p.length = l.length := by
  induction p generalizing l with
  | nil =>
    simp only [ciM, Option.some_inj] at h
    simp [← h]
  | cons a ps ih =>
    match l with
    | [] => simp [ciM] at h
    | c :: cs =>
      simp only [ciM] at h
      by_cases hc : c.toLower = a.toLower
      · rw [if_pos hc] at h
        have := ih h
        simp [List.length_cons]
        omega
      · rw [if_neg hc] at h
        exact absurd h (by simp)

theorem litM_length {p l r : List Char} (h : litM p l = some r) :
    r.length + p.length = l.length := by
  induction p generalizing l with
  | nil =>
    simp only [litM, Option.some_inj] at h
    simp [← h]
  | cons a ps ih =>
    match l with
    | [] => simp [litM] at h
    | c :: cs =>
      simp only [litM] at h
      by_cases hc : c = a
      · rw [if_pos hc] at h
        have := ih h
        simp [List.length_cons]
        omega
      · rw [if_neg hc] at h
        exact absurd h (by simp)

theorem dropWhile_len_le (p : Char → Bool) (l : List Char) :
    (l.dropWhile p).length ≤ l.length := by
  induction l with
  | nil => simp [List.dropWhile]
  | cons c cs ih =>
    by_cases h : p c
    · simp only [List.dropWhile, h]
      exact Nat.le_succ_of_le ih
    · simp [List.dropWhile, h]

/-- Split a character list at every occurrence of a separator character,
as JS String.split with a one-character separator. -/
def splitOnChar (sep : Char) : List Char → List (List Char)
  | [] => [[]]
  | x :: xs =>
    match splitOnChar sep xs with
    | [] => [[]]
    | h :: t => if x = sep then [] :: h :: t else (x :: h) :: t

/-- JS String.startsWith, evaluated on the character lists. -/
def strStartsWith (pat s : String) : Bool := (litM pat.toList s.toList).isSome

/-- Join character-list segments with a separator character. -/
def joinWithChar (sep : Char) : List (List Char) → List Char
  | [] => []
  | [h] => h
  | h :: t => h ++ sep :: joinWithChar sep t

/-- Whitespace trim of both ends, as JS String.trim on ASCII input. -/
def strTrim (str : String) : String :=
  ⟨((str.toList.dropWhile wsChar).reverse.dropWhile wsChar).reverse⟩

/-!
## Template Resolver

Embedding of the TEMPLATE_VARIABLE regex from src/constants.ts
(the pattern matches two opening braces, a nonempty run of word characters,
and two closing braces) and of the two resolveTemplateVariables functions:
the one in src/utils/config-loader.ts (direct lookup) and the one in the
environment module (direct lookup with an NG_-prefixed fallback).  The JS
String.replace with a global regex is embedded as a left-to-right scan that
replaces each non-overlapping leftmost match.
-/

/-- Match the placeholder pattern at the head of the input: two opening
braces, a maximal nonempty run of word characters, two closing braces.
Returns the name and the remaining input.  Greedy word-run followed by a
literal brace is exact regex behaviour because a shorter run would put a
word character where the brace is required. -/
def matchPlaceholder (l : List Char) : Option (List Char × List Char) :=
  match l with
  | c1 :: c2 :: rest =>
    if c1 = '{' ∧ c2 = '{' then
      let name := rest.takeWhile wordChar
      if name.isEmpty then none
      else
        match rest.dropWhile wordChar with
        | d1 :: d2 :: r3 => if d1 = '}' ∧ d2 = '}' then some (name, r3) else none
        | _ => none
    else none
  | _ => none

theorem matchPlaceholder_shape {l : List Char} {name rest : List Char}
    (h : matchPlaceholder l = some (name, rest)) :
    l = '{' :: '{' :: (name ++ '}' :: '}' :: rest) ∧ name ≠ [] ∧
      ∀ c ∈ name, wordChar c = true := by
  match l with
  | [] => simp [matchPlaceholder] at h
  | [c1] => simp [matchPlaceholder] at h
  | c1 :: c2 :: r =>
    simp only [matchPlaceholder] at h
    by_cases hb : c1 = '{' ∧ c2 = '{'
    · obtain ⟨hb1, hb2⟩ := hb
      subst hb1; subst hb2
      simp only [and_self, if_true, true_and] at h
      by_cases he : (r.takeWhile wordChar).isEmpty
      · simp [he] at h
      · simp only [he, Bool.false_eq_true, if_false] at h
        match hd : r.dropWhile wordChar with
        | [] => rw [hd] at h; simp at h
        | [d1] => rw [hd] at h; simp at h
        | d1 :: d2 :: r3 =>
          rw [hd] at h
          by_cases hb2 : d1 = '}' ∧ d2 = '}'
          · obtain ⟨hc1, hc2⟩ := hb2
            subst hc1; subst hc2
            simp only [and_self, if_true, Option.some_inj, Prod.mk.injEq] at h
            obtain ⟨h1, h2⟩ := h
            have hsplit := List.takeWhile_append_dropWhile (p := wordChar) (l := r)
            rw [hd, h1] at hsplit
            refine ⟨?_, ?_, ?_⟩
            · rw [← hsplit, ← h2]
            · intro hne
              rw [h1, hne] at he
              simp at he
            · intro c hc
              rw [← h1] at hc
              exact List.mem_takeWhile_imp hc
          · simp [hb2] at h
    · simp [hb] at h

theorem matchPlaceholder_length {l : List Char} {name rest : List Char}
    (h : matchPlaceholder l = some (name, rest)) : rest.length < l.length := by
  obtain ⟨h1, _, _⟩ := matchPlaceholder_shape h
  subst h1
  simp [List.length_append]
  omega

/-- The replacement scan shared by both resolveTemplateVariables functions:
each leftmost placeholder match is replaced by the looked-up value when the
lookup succeeds, and kept verbatim otherwise; all other characters pass
through unchanged. -/
def substPlaceholders (lookup : String → Option String) : List Char → List Char
  | [] => []
  | c :: cs =>
    match hm : matchPlaceholder (c :: cs) with
    | some (name, rest) =>
      match lookup ⟨name⟩ with
      | some v => v.toList ++ substPlaceholders lookup rest
      | none => '{' :: '{' :: (name ++ '}' :: '}' :: substPlaceholders lookup rest)
    | none => c :: substPlaceholders lookup cs
  termination_by l => l.length
  decreasing_by
  all_goals first
    | exact matchPlaceholder_length hm
    | simp

unseal substPlaceholders

/-- The placeholder names matched by a scan of the input, in order. -/
def scanNames : List Char → List String
  | [] => []
  | c :: cs =>
    match hm : matchPlaceholder (c :: cs) with
    | some (name, rest) => (⟨name⟩ : String) :: scanNames rest
    | none => scanNames cs
  termination_by l => l.length
  decreasing_by
  all_goals first
    | exact matchPlaceholder_length hm
    | simp

unseal scanNames

/-- resolveTemplateVariables from src/utils/config-loader.ts: replace each
placeholder by the variable value when defined, otherwise keep the match. -/
def resolveTemplateVariables (template : String) (envVars : List (String × String)) :
    String :=
  ⟨substPlaceholders (fun n => objGet envVars n) template.toList⟩

/-- resolveTemplateVariables from the environment module: identical scan,
but an undefined name falls back to the NG_-prefixed key before the match
is kept.  The early returns of the source for templates without a match
are semantically the identity scan. -/
def resolveTemplateVariablesEnv (template : String) (envVars : List (String × String)) :
    String :=
  ⟨substPlaceholders
    (fun n => (objGet envVars n).or (objGet envVars ("NG_" ++ n))) template.toList⟩

/-!
## Filesystem and parser oracles

The filesystem is a read-only snapshot: a map from canonical
slash-separated paths (relative to the working directory) to file contents,
plus a map from directory paths to the names of their subdirectories.
JSON parsing and package.json / angular.json interpretation are external
collaborators per the specification, modelled as oracle functions supplied
to the embedded code.
-/

structure FS where
  files : List (String × String)
  dirs : List (String × List String)

/-- fs.readFileSync wrapped in try/catch: a missing file reads as none. -/
def fsRead (fs : FS) (p : String) : Option String := objGet fs.files p

/-- fs.existsSync on the snapshot. -/
def fsExists (fs : FS) (p : String) : Bool :=
  (objGet fs.files p).isSome || (objGet fs.dirs p).isSome

/-- fs.readdirSync filtered to directories, as used by the glob search. -/
def fsSubdirs (fs : FS) (p : String) : Option (List String) := objGet fs.dirs p

/-- readFileSync after a successful existence check; a pathological
exists-but-unreadable entry reads as the empty document. -/
def fsReadD (fs : FS) (p : String) : String := (fsRead fs p).getD ""

/-- path.join on canonical paths. -/
def pathJoin (a b : String) : String := a ++ "/" ++ b

/-- path.join with a possibly-empty second segment (JS join drops it). -/
def pathJoinOr (a b : String) : String := if b = "" then a else pathJoin a b

/-- path.resolve normalisation of a trailing slash, as hit by the glob
search prefix. -/
def stripTrailingSlash (s : String) : String :=
  match s.toList.getLast? with
  | some c => if c = '/' then ⟨s.toList.dropLast⟩ else s
  | none => s

/-- path.dirname on a canonical relative path. -/
def dirname (p : String) : String :=
  let parts := splitOnChar '/' p.toList
  match parts with
  | [] => "."
  | [_] => "."
  | _ => ⟨joinWithChar '/' parts.dropLast⟩

/-- path.relative on canonical paths: empty for equal paths, the suffix
when the base properly contains the path, and a parent-traversal marker
otherwise. -/
def pathRelative (base p : String) : String :=
  if p = base then ""
  else if strStartsWith (base ++ "/") p then
    ⟨p.toList.drop (base ++ "/").toList.length⟩
  else "../" ++ p

/-- path.isAbsolute on canonical paths. -/
def pathIsAbsolute (p : String) : Bool := strStartsWith "/" p

/-- One angular.json project entry as read by the environment loader. -/
structure AngularProjectCfg where
  projectType : String
  root : String
  sourceRoot : String

/-- CSPConfig: the directives mapping plus the three flags.  The built-in
configurations define every field, so the optional TS fields are concrete
here; a user file contributes a partial record below. -/
structure CSPConfig where
  directives : List (String × List String)
  useNonce : Bool
  nonceLength : Nat
  reportOnly : Bool
deriving DecidableEq

/-- Partial<CSPConfig> as parsed from a user JSON file. -/
structure PartialCSPConfig where
  directives : Option (List (String × List String))
  useNonce : Option Bool
  nonceLength : Option Nat
  reportOnly : Option Bool

/-- External parsing collaborators (JSON.parse and the typed projections
the sources apply to its result). -/
structure Parsers where
  parseCSPConfig : String → Option PartialCSPConfig
  parsePackageDeps : String → Option (List String)
  parseAngularWorkspace : String → Option (List AngularProjectCfg)
  parseAngularBuild : String → Option (List (Option String))

/-- Oracle set for which every parse fails, as for malformed JSON. -/
def failingParsers : Parsers :=
  ⟨fun _ => none, fun _ => none, fun _ => none, fun _ => none⟩

/-!
## CSP Config Loader (src/utils/config-loader.ts)
-/

/-- The pair of built-in base configurations passed to loadConfig. -/
structure BaseConfigs where
  DEFAULT : CSPConfig
  PRODUCTION : CSPConfig

/-- getDefaultConfigForEnvironment: selects the production base exactly
when the envVars argument maps NODE_ENV to the string production. -/
def getDefaultConfigForEnvironment (baseConfigs : BaseConfigs)
    (envVars : List (String × String)) : CSPConfig :=
  if objGet envVars "NODE_ENV" = some "production" then baseConfigs.PRODUCTION
  else baseConfigs.DEFAULT

/-- tryReadSpecifiedConfig: a missing or unreadable explicit path is
treated as absent. -/
def tryReadSpecifiedConfig (fs : FS) (configPath : Option String) :
    Option (String × String) :=
  match configPath with
  | none => none
  | some p =>
    if fsExists fs p then (fsRead fs p).map (fun c => (c, p)) else none

/-- tryReadDefaultConfig: csp.config.json in the working directory. -/
def tryReadDefaultConfig (fs : FS) : Option (String × String) :=
  if fsExists fs "csp.config.json" then
    (fsRead fs "csp.config.json").map (fun c => (c, "csp.config.json"))
  else none

/-- readConfigFile: the explicit path first, then the conventional file. -/
def readConfigFile (fs : FS) (configPath : Option String) : Option (String × String) :=
  (tryReadSpecifiedConfig fs configPath).or (tryReadDefaultConfig fs)

/-- The spread merge used both by loadConfigFromFile and by
mergeConfigWithDefaults: user fields override wholesale, directives merge
key by key. -/
def mergeConfigWithDefaults (defaultConfig : CSPConfig) (config : PartialCSPConfig) :
    CSPConfig :=
  { directives := objAssign defaultConfig.directives (config.directives.getD []),
    useNonce := config.useNonce.getD defaultConfig.useNonce,
    nonceLength := config.nonceLength.getD defaultConfig.nonceLength,
    reportOnly := config.reportOnly.getD defaultConfig.reportOnly }

/-- loadConfigFromFile: read, resolve placeholders in the raw text, parse
(safeJsonParse returns none on invalid JSON, which is logged and treated
as absent), then merge over the mode-appropriate base. -/
def loadConfigFromFile (P : Parsers) (fs : FS) (baseConfigs : BaseConfigs)
    (envVars : List (String × String)) (configPath : Option String) :
    Option CSPConfig :=
  match readConfigFile fs configPath with
  | none => none
  | some (content, _) =>
    let resolvedContent := resolveTemplateVariables content envVars
    match P.parseCSPConfig resolvedContent with
    | none => none
    | some userConfig =>
      some (mergeConfigWithDefaults
        (getDefaultConfigForEnvironment baseConfigs envVars) userConfig)

/-- getFrameworkEnvironmentVariables: keys carrying one of the three
framework prefixes, in object order. -/
def getFrameworkEnvironmentVariables (envVars : List (String × String)) : List String :=
  (envVars.map Prod.fst).filter (fun key =>
    strStartsWith "REACT_APP_" key || strStartsWith "VITE_" key ||
      strStartsWith "NG_" key)

/-- enhanceConfigWithVariables: append one placeholder per framework
variable to connect-src, script-src and img-src when present. -/
def enhanceConfigWithVariables (baseConfig : CSPConfig) (vars0 : List String) :
    CSPConfig :=
  let placeholders := vars0.map (fun v => "\x7b\x7b" ++ v ++ "\x7d\x7d")
  let enhanced := ["connect-src", "script-src", "img-src"].foldl
    (fun dirs directive =>
      match objGet dirs directive with
      | some existingValues => objSet dirs directive (existingValues ++ placeholders)
      | none => dirs) baseConfig.directives
  { baseConfig with directives := enhanced }

/-- createEnhancedDefaultConfig: none when no framework variable exists. -/
def createEnhancedDefaultConfig (baseConfigs : BaseConfigs)
    (envVars : List (String × String)) : Option CSPConfig :=
  let frameworkVars := getFrameworkEnvironmentVariables envVars
  if frameworkVars.isEmpty then none
  else some (enhanceConfigWithVariables
    (getDefaultConfigForEnvironment baseConfigs envVars) frameworkVars)

/-- loadConfig: file config, then enhanced defaults, then the plain base. -/
def loadConfig (P : Parsers) (fs : FS) (baseConfigs : BaseConfigs)
    (configPath : Option String) (envVars : Option (List (String × String))) :
    CSPConfig :=
  let resolvedEnvVars := envVars.getD []
  match loadConfigFromFile P fs baseConfigs resolvedEnvVars configPath with
  | some c => c
  | none =>
    match createEnhancedDefaultConfig baseConfigs resolvedEnvVars with
    | some c => c
    | none => getDefaultConfigForEnvironment baseConfigs resolvedEnvVars

/-!
## HTML Detector (src/utils/html-detector.ts)

The three regexes of this module are embedded as explicit scanners:

* the detection pattern used for hasExistingCSP, whose matchable core is
  the literal meta/http-equiv/quote/Content-Security-Policy sequence;
* the removal pattern of processHTMLContent, applied globally;
* the head-tag pattern of injectMetaTag, applied to the first match.

Greedy character-class runs followed by a literal outside the class are
deterministic, and the optional attribute group between the tag name and
http-equiv is equivalent to a nonempty run of non-gt characters that
begins and ends with whitespace, so each scanner is backtracking-free.
-/

/-- The http-equiv/equals/quote/policy-name segment shared by the
detection and removal patterns. -/
def httpEquivSeg (l : List Char) : Option (List Char) :=
  match ciM "http-equiv".toList l with
  | none => none
  | some r =>
    match (r.dropWhile wsChar) with
    | c :: r2 =>
      if c = '=' then
        match (r2.dropWhile wsChar) with
        | q :: r4 =>
          if isQuote q then ciM "Content-Security-Policy".toList r4 else none
        | [] => none
      else none
    | [] => none

theorem httpEquivSeg_len {l r : List Char} (h : httpEquivSeg l = some r) :
    r.length ≤ l.length := by
  unfold httpEquivSeg at h
  split at h
  · simp at h
  next r1 h1 =>
    split at h
    next c r2 h2 =>
      split at h
      · split at h
        next q r4 h3 =>
          split at h
          · have e1 := ciM_length h1
            have e2 := ciM_length h
            have d1 := dropWhile_len_le wsChar r1
            have d2 := dropWhile_len_le wsChar r2
            rw [h2] at d1
            rw [h3] at d2
            simp only [List.length_cons] at d1 d2
            omega
          · simp at h
        · simp at h
      · simp at h
    · simp at h

/-- Scan of the attribute region of the detection pattern: any run of
non-gt characters may precede the http-equiv segment. -/
def cspDetectTail : List Char → Bool
  | [] => false
  | c :: cs =>
    if (httpEquivSeg (c :: cs)).isSome then true
    else if c = '>' then false
    else cspDetectTail cs

/-- Does the detection pattern match starting exactly here: the meta
literal, one whitespace, then the attribute scan. -/
def cspDetectAt (l : List Char) : Bool :=
  match ciM "<meta".toList l with
  | none => false
  | some (c :: cs) => if wsChar c then cspDetectTail (c :: cs) else false
  | some [] => false

/-- The CSP_DETECTION regex test: does the pattern match anywhere. -/
def cspDetectAux : List Char → Bool
  | [] => false
  | c :: cs => if cspDetectAt (c :: cs) then true else cspDetectAux cs

/-- hasExistingCSP computation of createHTMLDetectionResult. -/
def cspDetect (content : String) : Bool := cspDetectAux content.toList

/-- After the policy-name literal of the removal pattern: an optional
Report-Only suffix, a closing quote, the rest of the tag up to the closing
gt, and trailing whitespace.  The two alternatives are disjoint because a
hyphen is not a quote. -/
def removalClose (r : List Char) : Option (List Char) :=
  let closeTag := fun (m : List Char) =>
    match m.dropWhile (fun c => ¬ c = '>') with
    | g :: r7 => if g = '>' then some (r7.dropWhile wsChar) else none
    | [] => none
  match r with
  | q :: r6 =>
    if isQuote q then closeTag r6
    else
      match ciM "-Report-Only".toList r with
      | some (q2 :: r6b) => if isQuote q2 then closeTag r6b else none
      | _ => none
  | [] => none

theorem removalClose_len {l r : List Char} (h : removalClose l = some r) :
    r.length ≤ l.length := by
  have closeTag_le : ∀ (m s : List Char),
      (match List.dropWhile (fun c => ¬ c = '>') m with
      | g :: r7 => if g = '>' then some (r7.dropWhile wsChar) else none
      | [] => none) = some s → s.length ≤ m.length := by
    intro m s hs
    have d := dropWhile_len_le (fun c => ¬ c = '>') m
    split at hs
    next g r7 heq =>
      split at hs
      · rw [heq] at d
        simp only [List.length_cons] at d
        have d2 := dropWhile_len_le wsChar r7
        simp only [Option.some_inj] at hs
        subst hs
        omega
      · simp at hs
    · simp at hs
  unfold removalClose at h
  split at h
  next q r6 =>
    by_cases hq : isQuote q
    · rw [if_pos hq] at h
      have := closeTag_le r6 r h
      simp only [List.length_cons]
      omega
    · rw [if_neg hq] at h
      split at h
      next q2 r6b hm =>
        split at h
        · have e1 := ciM_length hm
          have := closeTag_le r6b r h
          simp only [List.length_cons] at e1 ⊢
          omega
        · simp at h
      next => simp at h
  · simp at h

/-- The removal pattern from http-equiv onward. -/
def removalFromHttpEquiv (l : List Char) : Option (List Char) :=
  match httpEquivSeg l with
  | some r5 => removalClose r5
  | none => none

theorem removalFromHttpEquiv_len {l r : List Char}
    (h : removalFromHttpEquiv l = some r) : r.length ≤ l.length := by
  unfold removalFromHttpEquiv at h
  split at h
  next r5 h5 =>
    have := httpEquivSeg_len h5
    have := removalClose_len h
    omega
  · simp at h

/-- Scan of the attribute region of the removal pattern.  The boolean
records whether the previous character was whitespace, since the optional
attribute group must end in whitespace before http-equiv.  The scanner
takes the earliest admissible http-equiv position; the greedy regex takes
the latest, and both accept exactly the same inputs. -/
def removalTail : List Char → Bool → Option (List Char)
  | [], _ => none
  | c :: cs, prevWs =>
    match (if prevWs then removalFromHttpEquiv (c :: cs) else none) with
    | some r => some r
    | none => if c = '>' then none else removalTail cs (wsChar c)

theorem removalTail_len {l r : List Char} {b : Bool} (h : removalTail l b = some r) :
    r.length ≤ l.length := by
  induction l generalizing b with
  | nil => simp [removalTail] at h
  | cons c cs ih =>
    unfold removalTail at h
    split at h
    next r2 hr =>
      simp only [Option.some_inj] at h
      subst h
      by_cases hb : b = true
      · rw [if_pos hb] at hr
        exact removalFromHttpEquiv_len hr
      · rw [if_neg hb] at hr
        simp at hr
    next =>
      split at h
      · simp at h
      · have := ih h
        simp only [List.length_cons]
        omega

/-- Does the removal pattern match starting exactly here: leading
whitespace, the meta literal, at least one whitespace, the attribute scan,
and the closing segment.  Returns the input after the whole match. -/
def removalMatchAt (l : List Char) : Option (List Char) :=
  match ciM "<meta".toList (l.dropWhile wsChar) with
  | none => none
  | some (c :: cs) => if wsChar c then removalTail cs true else none
  | some [] => none

theorem removalMatchAt_len {l r : List Char} (h : removalMatchAt l = some r) :
    r.length < l.length := by
  unfold removalMatchAt at h
  split at h
  · simp at h
  next c cs hm =>
    split at h
    · have e1 := ciM_length hm
      have d1 := dropWhile_len_le wsChar l
      have := removalTail_len h
      simp only [List.length_cons] at e1
      simp only [List.length_cons] at *
      omega
    · simp at h
  · simp at h

/-- The global removal replace of processHTMLContent: delete every
leftmost match of the removal pattern. -/
def removeCSPTags : List Char → List Char
  | [] => []
  | c :: cs =>
    match hm : removalMatchAt (c :: cs) with
    | some rest => removeCSPTags rest
    | none => c :: removeCSPTags cs
  termination_by l => l.length
  decreasing_by
  all_goals first
    | exact removalMatchAt_len hm
    | simp

unseal removeCSPTags

/-- The number of non-overlapping removal-pattern matches in a document:
the count of CSP meta tags the removal scan deletes. -/
def countCSPMetaTags : List Char → Nat
  | [] => 0
  | c :: cs =>
    match hm : removalMatchAt (c :: cs) with
    | some rest => 1 + countCSPMetaTags rest
    | none => countCSPMetaTags cs
  termination_by l => l.length
  decreasing_by
  all_goals first
    | exact removalMatchAt_len hm
    | simp

unseal countCSPMetaTags

/-- Match of the head-tag pattern at this position: the head literal, a
run of non-gt characters, the closing gt.  Returns the matched original
text and the rest. -/
def headTagMatchAt (l : List Char) : Option (List Char × List Char) :=
  match ciM "<head".toList l with
  | none => none
  | some r =>
    match r.dropWhile (fun c => ¬ c = '>') with
    | g :: _ =>
      if g = '>' then
        let n := 5 + (r.takeWhile (fun c => ¬ c = '>')).length + 1
        some (l.take n, l.drop n)
      else none
    | [] => none

/-- Replace the first head-tag match by itself, a newline and the meta
tag; the recursion advances one character at a time. -/
def injectAfterHead (metaTag : List Char) : List Char → Option (List Char)
  | [] => none
  | c :: cs =>
    match headTagMatchAt (c :: cs) with
    | some (tag, rest) => some (tag ++ '\n' :: (metaTag ++ rest))
    | none => (injectAfterHead metaTag cs).map (fun r => c :: r)

/-- injectMetaTag: after the opening head tag when one exists, otherwise
prepended to the document. -/
def injectMetaTag (html metaTag : List Char) : List Char :=
  match injectAfterHead metaTag html with
  | some r => r
  | none => metaTag ++ '\n' :: html

/-- processHTMLContent from src/utils/html-detector.ts: build the meta
tag, delete every existing CSP tag, inject the new tag, and report the
constant 1 as replacedTags exactly as the source does. -/
def processHTMLContent (html csp : String) (reportOnly : Bool) :
    String × Nat :=
  let metaType :=
    if reportOnly then "Content-Security-Policy-Report-Only" else "Content-Security-Policy"
  let metaTag := "<meta http-equiv=\"" ++ metaType ++ "\" content=\"" ++ csp ++ "\">"
  let modifiedHtml := removeCSPTags html.toList
  (⟨injectMetaTag modifiedHtml metaTag.toList⟩, 1)

/-- Result of a successful HTML detection. -/
structure HTMLDetectionResult where
  path : String
  buildDir : String
  hasExistingCSP : Bool
deriving DecidableEq

/-- The fixed development search list of src/utils/html-detector.ts. -/
def HTML_SEARCH_PATHS_DEV : List String :=
  ["projects/*/src/index.html", "src/index.html", "public/index.html", "index.html"]

/-- The fixed production search list of src/utils/html-detector.ts. -/
def HTML_SEARCH_PATHS_PROD : List String :=
  ["dist/index.html", "build/index.html", "www/index.html", "public/index.html",
   "index.html"]

/-- createHTMLDetectionResult: read the file and scan it for an existing
CSP meta tag. -/
def createHTMLDetectionResult (fs : FS) (fullPath htmlPath : String) :
    HTMLDetectionResult :=
  { path := fullPath, buildDir := dirname htmlPath,
    hasExistingCSP := cspDetect (fsReadD fs fullPath) }

/-- getAngularBuildPaths: per-project outputPath entries of angular.json,
each suffixed with the index document. -/
def getAngularBuildPaths (P : Parsers) (fs : FS) : List String :=
  if fsExists fs "angular.json" then
    match fsRead fs "angular.json" with
    | none => []
    | some content =>
      match P.parseAngularBuild content with
      | none => []
      | some outs =>
        (outs.filterMap id).map (fun outputPath => outputPath ++ "/index.html")
  else []

/-- searchGlobPattern: split on the star, list the subdirectories of the
prefix directory, and return the first expansion that exists. -/
def searchGlobPattern (fs : FS) (htmlPath : String) : Option HTMLDetectionResult :=
  match (splitOnChar '*' htmlPath.toList).map (fun l => (⟨l⟩ : String)) with
  | beforeStar :: afterStar :: _ =>
    if beforeStar = "" then none
    else
      let searchDir := stripTrailingSlash beforeStar
      if fsExists fs searchDir then
        match fsSubdirs fs searchDir with
        | none => none
        | some subdirs =>
          subdirs.findSome? (fun subdir =>
            let potentialPath := pathJoin searchDir (subdir ++ afterStar)
            if fsExists fs potentialPath then
              some (createHTMLDetectionResult fs potentialPath potentialPath)
            else none)
      else none
  | _ => none

/-- findHTMLFile: glob paths through the glob search, plain paths through
an existence check. -/
def findHTMLFile (fs : FS) (htmlPath : String) : Option HTMLDetectionResult :=
  if htmlPath.toList.any (fun c => c = '*') then searchGlobPattern fs htmlPath
  else if fsExists fs htmlPath then
    some (createHTMLDetectionResult fs htmlPath htmlPath)
  else none

/-- getHTMLSearchPaths: the dev list verbatim, or the Angular build paths,
the workspace build glob and the production list. -/
def getHTMLSearchPaths (P : Parsers) (fs : FS) (devMode : Bool) : List String :=
  if devMode then HTML_SEARCH_PATHS_DEV
  else getAngularBuildPaths P fs ++ "dist/*/index.html" :: HTML_SEARCH_PATHS_PROD

/-- detectHTML: first existing candidate wins, none otherwise. -/
def detectHTML (P : Parsers) (fs : FS) (devMode : Bool) :
    Option HTMLDetectionResult :=
  (getHTMLSearchPaths P fs devMode).findSome? (findHTMLFile fs)

/-!
## Environment Loader (the environment module) and project detection
(src/utils/project-detection.ts)
-/

/-- isValidEnvironmentValue pure-quote artifact regex: an optional quote,
whitespace, an optional quote, spanning the whole value.  The greedy
left-to-right reading is exact because a quote is not whitespace. -/
def isPureQuoteArtifact (v : String) : Bool :=
  let l := v.toList
  let l1 := match l with
    | c :: cs => if isQuote c then cs else l
    | [] => l
  match l1.dropWhile wsChar with
  | [] => true
  | [c] => isQuote c
  | _ => false

/-- isValidEnvironmentValue from the environment module: nonempty,
non-blank, not the undefined/null literals, not a pure-quote artifact. -/
def isValidEnvironmentValue (v : String) : Bool :=
  !(v = "") && !(strTrim v = "") && !(v = "undefined") && !(v = "null") &&
    !(isPureQuoteArtifact v)

/-- camelCaseToUpperCase step one: insert an underscore before every
uppercase letter. -/
def insertUnderscores : List Char → List Char
  | [] => []
  | c :: cs => if c.isUpper then '_' :: c :: insertUnderscores cs else c :: insertUnderscores cs

/-- camelCaseToUpperCase step three: strip one leading underscore. -/
def stripLeadingUnderscore : List Char → List Char
  | '_' :: cs => cs
  | l => l

/-- camelCaseToUpperCase from the environment module: insert underscores,
upper-case, strip a leading underscore. -/
def camelCaseToUpperCase (str : String) : String :=
  ⟨stripLeadingUnderscore ((insertUnderscores str.toList).map Char.toUpper)⟩

/-- filterValidEnvironmentVariables: keep exactly the valid entries. -/
def filterValidEnvironmentVariables (envVars : List (String × String)) :
    List (String × String) :=
  envVars.foldl
    (fun acc e => if isValidEnvironmentValue e.snd then objSet acc e.fst e.snd else acc) []

/-- ENV_FILE_LINE regex on an already-trimmed line: a name starting with a
letter or underscore, optional whitespace, an equals sign, optional
whitespace, and the remainder as the raw value. -/
def parseEnvLine (line : String) : Option (String × String) :=
  match line.toList with
  | c :: cs =>
    if c.isAlpha || c = '_' then
      let nm := c :: cs.takeWhile wordChar
      match (cs.dropWhile wordChar).dropWhile wsChar with
      | d :: r2 =>
        if d = '=' then some (⟨nm⟩, ⟨r2.dropWhile wsChar⟩) else none
      | [] => none
    else none
  | [] => none

/-- Strip one layer of surrounding quotes (either kind on either side), as
the anchored quote-stripping replace does. -/
def stripQuotes (v : String) : String :=
  match v.toList with
  | c :: cs =>
    if isQuote c then
      match cs.getLast? with
      | some d => if isQuote d then ⟨cs.dropLast⟩ else v
      | none => v
    else v
  | [] => v

/-- parseEnvFile: read the file, split into lines, skip blank and comment
lines, keep prefixed name/value pairs with one quote layer stripped.  A
missing or unreadable file contributes nothing. -/
def parseEnvFile (fs : FS) (envPath : String) (pfx : String) : List (String × String) :=
  match fsRead fs envPath with
  | none => []
  | some content =>
    ((splitOnChar '\n' content.toList).map (fun l => (⟨l⟩ : String))).foldl
      (fun acc line =>
        let trimmedLine := strTrim line
        if trimmedLine = "" then acc
        else if strStartsWith "#" trimmedLine then acc
        else
          match parseEnvLine trimmedLine with
          | some (k, v) =>
            if strStartsWith pfx k then objSet acc k (stripQuotes v) else acc
          | none => acc) []

/-- The active development/production mode read from the ambient NODE_ENV
entry of the process environment, as isProduction does. -/
def envMode (penv : List (String × String)) : String :=
  if objGet penv "NODE_ENV" = some "production" then "production" else "development"

/-- loadReactEnv: the four env files in fixed order with later files
overriding, then the prefixed process-environment variables on top. -/
def loadReactEnv (penv : List (String × String)) (fs : FS) (projectRoot : String) :
    List (String × String) :=
  let mode := envMode penv
  let envFiles := [".env", ".env." ++ mode, ".env.local", ".env." ++ mode ++ ".local"]
  let fileVars := envFiles.foldl (fun acc envFile =>
    let envPath := pathJoin projectRoot envFile
    if fsExists fs envPath then
      objAssign (objAssign acc (parseEnvFile fs envPath "REACT_APP_"))
        (parseEnvFile fs envPath "VITE_")
    else acc) []
  penv.foldl (fun acc e =>
    if strStartsWith "REACT_APP_" e.fst || strStartsWith "VITE_" e.fst then
      objSet acc e.fst e.snd
    else acc) fileVars

/-- The character class of the unquoted Angular property value branch:
everything except commas, whitespace and closing braces. -/
def propValueChar (c : Char) : Bool := !(c = ',' || wsChar c || c = '}')

/-- The quoted branch of the Angular property regex: an opening quote, a
lazy run up to the first quote of either kind, which closes the value. -/
def quotedValue : List Char → Option (String × List Char)
  | q :: r =>
    if isQuote q then
      match r.dropWhile (fun c => !(isQuote c)) with
      | _ :: r4 => some (⟨r.takeWhile (fun c => !(isQuote c))⟩, r4)
      | [] => none
    else none
  | [] => none

/-- The trailing optional whitespace and comma of the property regex. -/
def consumeTrailing (r : List Char) : List Char :=
  match r.dropWhile wsChar with
  | c :: r2 => if c = ',' then r2 else c :: r2
  | [] => []

/-- One match attempt of the Angular property regex at this position: a
word key, a colon, optional whitespace, then the quoted or the unquoted
value branch in that order. -/
def matchProp (l : List Char) : Option ((String × String) × List Char) :=
  match l.takeWhile wordChar with
  | [] => none
  | w0 :: w1 =>
    match l.dropWhile wordChar with
    | c :: r1 =>
      if c = ':' then
        match quotedValue (r1.dropWhile wsChar) with
        | some (v, r4) => some ((⟨w0 :: w1⟩, v), consumeTrailing r4)
        | none =>
          match (r1.dropWhile wsChar).takeWhile propValueChar with
          | [] => none
          | v0 :: v1 =>
            some ((⟨w0 :: w1⟩, (⟨v0 :: v1⟩ : String)),
              consumeTrailing ((r1.dropWhile wsChar).dropWhile propValueChar))
      else none
    | [] => none

theorem consumeTrailing_len (r : List Char) : (consumeTrailing r).length ≤ r.length := by
  unfold consumeTrailing
  have d := dropWhile_len_le wsChar r
  split
  next c r2 heq =>
    rw [heq] at d
    split
    · simp only [List.length_cons] at d
      omega
    · exact d
  · simp

theorem quotedValue_len {m : List Char} {v : String} {r4 : List Char}
    (h : quotedValue m = some (v, r4)) : r4.length < m.length := by
  match m with
  | [] => simp [quotedValue] at h
  | q :: r =>
    simp only [quotedValue] at h
    by_cases hq : isQuote q
    · rw [if_pos hq] at h
      split at h
      next c2 r4b heq =>
        simp only [Option.some_inj, Prod.mk.injEq] at h
        obtain ⟨h1, h2⟩ := h
        subst h2
        have d := dropWhile_len_le (fun c => !(isQuote c)) r
        rw [heq] at d
        simp only [List.length_cons] at d ⊢
        omega
      · simp at h
    · rw [if_neg hq] at h
      simp at h

theorem matchProp_len {l : List Char} {kv : String × String} {rest : List Char}
    (h : matchProp l = some (kv, rest)) : rest.length < l.length := by
  unfold matchProp at h
  split at h
  · simp at h
  next w0 w1 hw =>
    split at h
    next c r1 heq =>
      have hsplit := List.takeWhile_append_dropWhile (p := wordChar) (l := l)
      rw [heq, hw] at hsplit
      have hlen : l.length = w1.length + 2 + r1.length := by
        rw [← hsplit]
        simp [List.length_append]
        omega
      have d2 := dropWhile_len_le wsChar r1
      split at h
      · split at h
        next v r4 hq =>
          simp only [Option.some_inj, Prod.mk.injEq] at h
          obtain ⟨_, h2⟩ := h
          subst h2
          have := consumeTrailing_len r4
          have := quotedValue_len hq
          omega
        next =>
          split at h
          · simp at h
          next v0 v1 hv =>
            simp only [Option.some_inj, Prod.mk.injEq] at h
            obtain ⟨_, h2⟩ := h
            subst h2
            have := consumeTrailing_len ((r1.dropWhile wsChar).dropWhile propValueChar)
            have := dropWhile_len_le propValueChar (r1.dropWhile wsChar)
            omega
      · simp at h
    · simp at h

/-- The global exec loop over the Angular property regex: all matches in
order, each search resuming after the previous match. -/
def scanProps : List Char → List (String × String)
  | [] => []
  | c :: cs =>
    match hm : matchProp (c :: cs) with
    | some (kv, rest) => kv :: scanProps rest
    | none => scanProps cs
  termination_by l => l.length
  decreasing_by
  all_goals first
    | exact matchProp_len hm
    | simp

unseal scanProps

/-- ^[A-Z0-9_]+$ test deciding whether a key is kept verbatim. -/
def isUpperSnakeKey (key : String) : Bool :=
  !key.toList.isEmpty && key.toList.all (fun c => c.isUpper || c.isDigit || c = '_')

/-- Key translation of parseAngularEnvFile: the Angular prefix plus either
the verbatim upper-snake key or its camelCase translation. -/
def angularEnvKey (key : String) : String :=
  if isUpperSnakeKey key then "NG_" ++ key else "NG_" ++ camelCaseToUpperCase key

/-- The loop body of parseAngularEnvFile: keep a property only when the
key is nonempty and the value is valid and not a boolean literal. -/
def processProperty (key value : String) : Option (String × String) :=
  if !(key = "") && isValidEnvironmentValue value && !(value = "false") &&
      !(value = "true") then
    some (angularEnvKey key, value)
  else none

/-- One mandatory-whitespace step: require a whitespace character and
consume the maximal run. -/
def reqWsRun (l : List Char) : Option (List Char) :=
  match l with
  | c :: _ => if wsChar c then some (l.dropWhile wsChar) else none
  | [] => none

/-- The brace-delimited body of the environment export: a nonempty run of
non-brace characters closed by a brace. -/
def exportBody (r9 : List Char) : Option (List Char) :=
  match r9.takeWhile (fun c2 => !(c2 = '}')) with
  | [] => none
  | i0 :: i1 =>
    match r9.dropWhile (fun c2 => !(c2 = '}')) with
    | g :: _ => if g = '}' then some (i0 :: i1) else none
    | [] => none

/-- The equals sign, the opening brace and the body of the export. -/
def exportAfterName (r5 : List Char) : Option (List Char) :=
  match r5.dropWhile wsChar with
  | e :: r7 =>
    if e = '=' then
      match r7.dropWhile wsChar with
      | f :: r9 => if f = '{' then exportBody r9 else none
      | [] => none
    else none
  | [] => none

/-- The ENVIRONMENT_EXPORT regex at this position: the export, const and
environment literals separated by whitespace, then the assigned object
body. -/
def matchEnvExport (l : List Char) : Option (List Char) :=
  match litM "export".toList l with
  | none => none
  | some r1 =>
    match reqWsRun r1 with
    | none => none
    | some r2 =>
      match litM "const".toList r2 with
      | none => none
      | some r3 =>
        match reqWsRun r3 with
        | none => none
        | some r4 =>
          match litM "environment".toList r4 with
          | none => none
          | some r5 => exportAfterName r5

/-- The regex search for the first environment export in the file. -/
def findEnvExport : List Char → Option (List Char)
  | [] => none
  | c :: cs =>
    match matchEnvExport (c :: cs) with
    | some inner => some inner
    | none => findEnvExport cs

/-- parseAngularEnvFile on file content: locate the export body, scan its
properties, and keep the translated valid string-valued entries. -/
def parseAngularEnvContent (content : String) : List (String × String) :=
  match findEnvExport content.toList with
  | none => []
  | some inner =>
    (scanProps inner).foldl (fun acc kv =>
      match processProperty kv.fst kv.snd with
      | some (k, v) => objSet acc k v
      | none => acc) []

/-- parseAngularEnvFile: a missing or unreadable file yields no entries. -/
def parseAngularEnvFile (fs : FS) (envPath : String) : List (String × String) :=
  if fsExists fs envPath then
    match fsRead fs envPath with
    | some content => parseAngularEnvContent content
    | none => []
  else []

/-- isAngularProject from src/utils/project-detection.ts: an Angular
configuration file or Angular-shaped directories. -/
def isAngularProject (fs : FS) (projectRoot : String) : Bool :=
  fsExists fs (pathJoin projectRoot "angular.json") ||
  fsExists fs (pathJoin projectRoot ".angular-cli.json") ||
  fsExists fs (pathJoin (pathJoin projectRoot "src") "environments") ||
  fsExists fs (pathJoin projectRoot "projects")

/-- isReactProject from src/utils/project-detection.ts: package.json
exists, parses, and its merged dependencies contain react. -/
def isReactProject (fs : FS) (P : Parsers) (projectRoot : String) : Bool :=
  if fsExists fs (pathJoin projectRoot "package.json") then
    match fsRead fs (pathJoin projectRoot "package.json") with
    | none => false
    | some content =>
      match P.parsePackageDeps content with
      | none => false
      | some deps => deps.contains "react" || deps.contains "@types/react"
  else false

/-- loadAngularWorkspace: parse angular.json when present; a parse
failure is logged and yields none. -/
def loadAngularWorkspace (fs : FS) (P : Parsers) (projectRoot : String) :
    Option (List AngularProjectCfg) :=
  if fsExists fs (pathJoin projectRoot "angular.json") then
    match fsRead fs (pathJoin projectRoot "angular.json") with
    | none => none
    | some content => P.parseAngularWorkspace content
  else none

/-- findProjectForHtmlPath: the first application project whose root
contains the target path without parent traversal; parse only that
project. -/
def findProjectForHtmlPath (ws : List AngularProjectCfg) (fs : FS)
    (projectRoot targetHtmlPath envFile : String) : List (String × String) :=
  match ws.find? (fun config =>
      config.projectType = "application" &&
      (let relativePath :=
        pathRelative (pathJoinOr projectRoot config.root) targetHtmlPath
       !(strStartsWith ".." relativePath) && !(pathIsAbsolute relativePath))) with
  | some config =>
    parseAngularEnvFile fs
      (pathJoin (pathJoin (pathJoinOr projectRoot
        (if config.sourceRoot = "" then "src" else config.sourceRoot)) "environments")
        envFile)
  | none => []

/-- loadAllWorkspaceProjects: merge the environment files of every
application project. -/
def loadAllWorkspaceProjects (ws : List AngularProjectCfg) (fs : FS)
    (projectRoot envFile : String) : List (String × String) :=
  ws.foldl (fun acc config =>
    if config.projectType = "application" then
      objAssign acc (parseAngularEnvFile fs
        (pathJoin (pathJoin (pathJoinOr projectRoot
          (if config.sourceRoot = "" then "src" else config.sourceRoot)) "environments")
          envFile))
    else acc) []

/-- loadAngularEnv: project-specific loading, then workspace-wide
loading, then the conventional fallback path. -/
def loadAngularEnv (penv : List (String × String)) (fs : FS) (P : Parsers)
    (projectRoot : String) (targetHtmlPath : Option String) : List (String × String) :=
  let envFile :=
    if objGet penv "NODE_ENV" = some "production" then "environment.prod.ts"
    else "environment.ts"
  let workspace := loadAngularWorkspace fs P projectRoot
  let projectVars :=
    match workspace, targetHtmlPath with
    | some ws, some thp => findProjectForHtmlPath ws fs projectRoot thp envFile
    | _, _ => []
  if !projectVars.isEmpty then projectVars
  else
    let workspaceVars :=
      match workspace with
      | some ws => loadAllWorkspaceProjects ws fs projectRoot envFile
      | none => []
    if !workspaceVars.isEmpty then workspaceVars
    else
      parseAngularEnvFile fs
        (pathJoin (pathJoin (pathJoin projectRoot "src") "environments") envFile)

/-- loadEnvironmentVariables, the main entry point of the environment
module: framework-specific loading followed by the validity filter. -/
def loadEnvironmentVariables (penv : List (String × String)) (fs : FS) (P : Parsers)
    (projectRoot : String) (targetHtmlPath : Option String) : List (String × String) :=
  let envVars :=
    if isAngularProject fs projectRoot then
      loadAngularEnv penv fs P projectRoot targetHtmlPath
    else if isReactProject fs P projectRoot then
      loadReactEnv penv fs projectRoot
    else
      objAssign (loadReactEnv penv fs projectRoot)
        (loadAngularEnv penv fs P projectRoot targetHtmlPath)
  filterValidEnvironmentVariables envVars

/-!
## CSPInjector (src/csp-injector.ts) and the NODE_ENV manager
(src/utils/node-env-manager.ts)
-/

/-- The quoted self source expression. -/
def SELF : String := sqs ++ "self" ++ sqs

/-- The quoted unsafe-inline source expression. -/
def UNSAFE_INLINE : String := sqs ++ "unsafe-inline" ++ sqs

/-- BASE_DIRECTIVES of src/csp-injector.ts, in literal order. -/
def BASE_DIRECTIVES : List (String × List String) :=
  [("default-src", [SELF]),
   ("style-src", [SELF, UNSAFE_INLINE]),
   ("img-src", [SELF, "data:", "blob:"]),
   ("font-src", [SELF, "data:"]),
   ("connect-src", [SELF]),
   ("worker-src", [SELF, "blob:"]),
   ("manifest-src", [SELF])]

/-- CSPInjector.DEFAULT_CONFIG. -/
def DEFAULT_CONFIG : CSPConfig :=
  { directives := BASE_DIRECTIVES ++ [("script-src", [SELF, UNSAFE_INLINE])],
    useNonce := false, nonceLength := 16, reportOnly := false }

/-- CSPInjector.PRODUCTION_CONFIG. -/
def PRODUCTION_CONFIG : CSPConfig :=
  { directives := BASE_DIRECTIVES ++ [("script-src", [SELF])],
    useNonce := true, nonceLength := 24, reportOnly := false }

/-- CSPInjector.loadEnvironmentVariables: copy the whole process
environment, then overlay the framework variables that pass the local
empty/undefined/null filter. -/
def CSPInjector_loadEnvironmentVariables (penv : List (String × String)) (fs : FS)
    (P : Parsers) (projectRoot : String) : List (String × String) :=
  let envVars := objAssign [] penv
  let frameworkEnvVars := loadEnvironmentVariables penv fs P projectRoot none
  frameworkEnvVars.foldl (fun acc e =>
    if !(e.snd = "") && !(e.snd = "undefined") && !(e.snd = "null") then
      objSet acc e.fst e.snd
    else acc) envVars

/-- setupEnvironmentForMode: set NODE_ENV for the requested mode and
report whether it must be restored.  An empty value is falsy in the
source and counts as unset. -/
def setupEnvironmentForMode (devMode : Option Bool) (env : Option String) :
    Bool × Option String :=
  match env with
  | none => (true, some (if devMode = some true then "development" else "production"))
  | some v =>
    if v = "" then
      (true, some (if devMode = some true then "development" else "production"))
    else if devMode = some true ∧ v = "production" then (true, some "development")
    else if devMode = some false ∧ v = "development" then (true, some "production")
    else (false, some v)

/-- restoreEnvironment: write the saved value back, deleting the variable
when it was originally unset; do nothing when no change was made. -/
def restoreEnvironment (shouldRestore : Bool) (originalNodeEnv env : Option String) :
    Option String :=
  if shouldRestore then
    match originalNodeEnv with
    | some v => some v
    | none => none
  else env

/-- The NODE_ENV state transition of executeInjectionWithEnvironment: the
saved prior value, the setup mutation, and the finally-guarded
restoration.  The guarded body only reads NODE_ENV (the environment and
config loaders and the injector perform no NODE_ENV writes), and the
finally clause runs on the normal and on the throwing path alike, so this
transition covers every exit of CSPInjector.inject that reaches the
try block, and the paths that throw earlier never touch NODE_ENV. -/
def nodeEnvAfterInject (devMode : Option Bool) (prior : Option String) :
    Option String :=
  let r := setupEnvironmentForMode devMode prior
  restoreEnvironment r.fst prior r.snd

/-!
## Claim theorems
-/

/-- C1: evidence for the code bug.  For the concrete HTML document with no
CSP meta tag, processHTMLContent leaves exactly one CSP meta tag in the
output but reports replacedTags = 1, not 0: the source returns the
constant 1 regardless of how many tags were removed, contradicting the
documented meaning of the field. -/
theorem processHTMLContent_no_existing_tag_reports_one :
    cspDetect "<html><head></head><body></body></html>" = false ∧
    countCSPMetaTags
      (String.toList "<html><head></head><body></body></html>") = 0 ∧
    (processHTMLContent "<html><head></head><body></body></html>"
      "default-src x" false).2 = 1 ∧
    countCSPMetaTags
      (String.toList (processHTMLContent "<html><head></head><body></body></html>"
        "default-src x" false).1) = 1 := by
  refine ⟨by decide, by decide, by decide, by decide⟩

/-- C2: counterexample.  In a working directory whose only file is
public/index.html, detectHTML with devMode = false returns a detection
result for public/index.html, not null: the production search list ends
with the public and root fallbacks. -/
theorem detectHTML_public_only_counterexample :
    detectHTML failingParsers ⟨[("public/index.html", "<html></html>")], []⟩ false =
      some ⟨"public/index.html", "public", false⟩ := by decide

/-- C4: confirmed.  For every requested mode and every prior state of
NODE_ENV, including the unset state, the setup/finally-restore pair of
CSPInjector.inject leaves NODE_ENV exactly as it was. -/
theorem inject_restores_node_env (devMode : Option Bool) (prior : Option String) :
    nodeEnvAfterInject devMode prior = prior := by
  cases prior with
  | none => rfl
  | some v =>
    unfold nodeEnvAfterInject setupEnvironmentForMode restoreEnvironment
    by_cases h1 : v = ""
    · simp [h1]
    · simp only [h1, if_false]
      by_cases h2 : devMode = some true ∧ v = "production"
      · simp [h2]
      · simp only [h2, if_false]
        by_cases h3 : devMode = some false ∧ v = "development"
        · simp [h3]
        · simp [h3]

/-- C3: counterexample.  Two loadConfig calls in an identical ambient
state (the function reads no ambient state at all), differing only in the
NODE_ENV entry of the envVars argument, select different built-in bases. -/
theorem loadConfig_base_counterexample :
    loadConfig failingParsers ⟨[], []⟩ ⟨DEFAULT_CONFIG, PRODUCTION_CONFIG⟩ none
      (some [("NODE_ENV", "production")]) = PRODUCTION_CONFIG ∧
    loadConfig failingParsers ⟨[], []⟩ ⟨DEFAULT_CONFIG, PRODUCTION_CONFIG⟩ none
      (some [("NODE_ENV", "development")]) = DEFAULT_CONFIG ∧
    PRODUCTION_CONFIG ≠ DEFAULT_CONFIG := by
  refine ⟨by decide, by decide, by decide⟩

/-- C5: counterexample.  A project whose .env, .env.local and
.env.development.local all define the same key: the value returned comes
from .env.development.local, which is read after .env.local, not from
.env.local. -/
theorem loadReactEnv_local_counterexample :
    objGet (loadReactEnv []
      ⟨[("p/.env", "REACT_APP_X=a"), ("p/.env.local", "REACT_APP_X=b"),
        ("p/.env.development.local", "REACT_APP_X=c")], []⟩ "p") "REACT_APP_X" =
      some "c" ∧ ("c" : String) ≠ "b" := by
  refine ⟨by decide, by decide⟩

/-- C6: counterexample.  When a substituted value itself contains a
placeholder, a second resolution pass substitutes again, so the resolver
is not idempotent. -/
theorem resolveTemplateVariables_not_idempotent :
    resolveTemplateVariables
      (resolveTemplateVariables "\x7b\x7bA\x7d\x7d"
        [("A", "\x7b\x7bB\x7d\x7d"), ("B", "x")])
      [("A", "\x7b\x7bB\x7d\x7d"), ("B", "x")] ≠
    resolveTemplateVariables "\x7b\x7bA\x7d\x7d"
      [("A", "\x7b\x7bB\x7d\x7d"), ("B", "x")] := by decide

/-- C9: counterexample.  CSPInjector.loadEnvironmentVariables copies the
whole process environment into its result before overlaying the filtered
framework variables, so an empty-string process entry reaches consumers
unfiltered. -/
theorem injector_loadEnvironmentVariables_passes_empty :
    objGet (CSPInjector_loadEnvironmentVariables [("FOO", "")] ⟨[], []⟩
      failingParsers "p") "FOO" = some "" ∧
    isValidEnvironmentValue "" = false := by
  refine ⟨by decide, by decide⟩

theorem takeWhile_word_append (name r : List Char)
    (hw : ∀ c ∈ name, wordChar c = true) :
    (name ++ '}' :: r).takeWhile wordChar = name ∧
    (name ++ '}' :: r).dropWhile wordChar = '}' :: r := by
  induction name with
  | nil =>
    have hb : wordChar '}' = false := by decide
    refine ⟨?_, ?_⟩
    · simp [List.takeWhile, hb]
    · simp [List.dropWhile, hb]
  | cons a l ih =>
    have ha : wordChar a = true := hw a (by simp)
    have ihl := ih (fun c hc => hw c (by simp [hc]))
    constructor
    · simp only [List.cons_append, List.takeWhile_cons, ha, if_true]
      rw [ihl.1]
    · simp only [List.cons_append, List.dropWhile_cons, ha, if_true]
      exact ihl.2

theorem matchPlaceholder_aligned (name r : List Char) (hne : name ≠ [])
    (hw : ∀ c ∈ name, wordChar c = true) :
    matchPlaceholder ('{' :: '{' :: (name ++ '}' :: '}' :: r)) = some (name, r) := by
  have h := takeWhile_word_append name ('}' :: r) hw
  unfold matchPlaceholder
  simp only [and_self, if_true, h.1, h.2]
  have : name.isEmpty = false := by
    cases name with
    | nil => exact absurd rfl hne
    | cons a l => rfl
  simp [this]

theorem strMk_toList (s : String) : (⟨s.toList⟩ : String) = s := rfl

theorem toList_mk (l : List Char) : (⟨l⟩ : String).toList = l := rfl

theorem substPlaceholders_nil (f : String → Option String) :
    substPlaceholders f [] = [] := by
  rw [substPlaceholders.eq_def]

/-- C10: confirmed.  A placeholder whose name is not a key of the map is
substituted from the NG_-prefixed key when that key is present, and left
unchanged only when both lookups fail. -/
theorem resolveTemplateVariablesEnv_ng_fallback (V : List (String × String))
    (name : List Char) (v : String) (hne : name ≠ [])
    (hw : ∀ c ∈ name, wordChar c = true) :
    (objGet V ⟨name⟩ = none → objGet V ("NG_" ++ ⟨name⟩) = some v →
      resolveTemplateVariablesEnv ⟨'{' :: '{' :: (name ++ '}' :: '}' :: [])⟩ V = v) ∧
    (objGet V ⟨name⟩ = none → objGet V ("NG_" ++ ⟨name⟩) = none →
      resolveTemplateVariablesEnv ⟨'{' :: '{' :: (name ++ '}' :: '}' :: [])⟩ V =
        ⟨'{' :: '{' :: (name ++ '}' :: '}' :: [])⟩) := by
  have hal := matchPlaceholder_aligned name [] hne hw
  constructor
  · intro h1 h2
    unfold resolveTemplateVariablesEnv
    rw [substPlaceholders.eq_def]
    simp only [toList_mk]
    rw [hal]
    simp only [h1, h2, Option.none_or, substPlaceholders_nil, List.append_nil]
    exact strMk_toList v
  · intro h1 h2
    unfold resolveTemplateVariablesEnv
    rw [substPlaceholders.eq_def]
    simp only [toList_mk]
    rw [hal]
    simp only [h1, h2, Option.none_or, substPlaceholders_nil]

/-- C10 witness: the fallback theorem applied at a concrete map holding
only the prefixed key. -/
theorem resolveTemplateVariablesEnv_ng_fallback_witness :
    resolveTemplateVariablesEnv
      ⟨'{' :: '{' :: (String.toList "API_URL" ++ '}' :: '}' :: [])⟩
      [("NG_API_URL", "u")] = "u" :=
  (resolveTemplateVariablesEnv_ng_fallback [("NG_API_URL", "u")]
    (String.toList "API_URL") "u" (by decide) (by decide)).1 (by decide) (by decide)

/-- C8: confirmed.  When the config file is readable but its resolved
content fails to parse as JSON, loadConfig returns exactly what it
returns with no usable file: the enhanced defaults when framework
variables exist, the plain mode base otherwise.  The embedded function is
total, matching the source, which catches the parse error inside
safeJsonParse and logs a warning. -/
theorem loadConfig_invalid_json_falls_back (P : Parsers) (fs : FS) (base : BaseConfigs)
    (configPath : Option String) (envVars : List (String × String))
    (content fp : String)
    (hread : readConfigFile fs configPath = some (content, fp))
    (hparse : P.parseCSPConfig (resolveTemplateVariables content envVars) = none) :
    loadConfig P fs base configPath (some envVars) =
      (match createEnhancedDefaultConfig base envVars with
       | some c => c
       | none => getDefaultConfigForEnvironment base envVars) := by
  unfold loadConfig loadConfigFromFile
  simp only [Option.getD_some]
  rw [hread]
  simp only [hparse]

/-- C3: amended.  With no readable config file and no framework-prefixed
variables, the base configuration loadConfig returns is determined by
the NODE_ENV entry of the envVars argument itself, production exactly
when that entry is the string production; loadConfig reads no ambient
state, so the ambient flag is irrelevant to the selection. -/
theorem loadConfig_base_selection (P : Parsers) (fs : FS) (base : BaseConfigs)
    (configPath : Option String) (envVars : List (String × String))
    (hfile : readConfigFile fs configPath = none)
    (hfw : getFrameworkEnvironmentVariables envVars = []) :
    loadConfig P fs base configPath (some envVars) =
      (if objGet envVars "NODE_ENV" = some "production" then base.PRODUCTION
       else base.DEFAULT) := by
  unfold loadConfig loadConfigFromFile createEnhancedDefaultConfig
  simp only [Option.getD_some]
  rw [hfile, hfw]
  simp [getDefaultConfigForEnvironment]

/-- C3 witness. -/
theorem loadConfig_base_selection_witness :
    loadConfig failingParsers ⟨[], []⟩ ⟨DEFAULT_CONFIG, PRODUCTION_CONFIG⟩ none
      (some [("NODE_ENV", "development"), ("X", "1")]) = DEFAULT_CONFIG := by
  have h := loadConfig_base_selection failingParsers ⟨[], []⟩
    ⟨DEFAULT_CONFIG, PRODUCTION_CONFIG⟩ none [("NODE_ENV", "development"), ("X", "1")]
    (by decide) (by decide)
  rw [h]
  decide

/-- C8 witness. -/
theorem loadConfig_invalid_json_falls_back_witness :
    loadConfig failingParsers ⟨[("csp.config.json", "notjson")], []⟩
      ⟨DEFAULT_CONFIG, PRODUCTION_CONFIG⟩ none (some []) = DEFAULT_CONFIG := by
  have h := loadConfig_invalid_json_falls_back failingParsers
    ⟨[("csp.config.json", "notjson")], []⟩ ⟨DEFAULT_CONFIG, PRODUCTION_CONFIG⟩ none []
    "notjson" "csp.config.json" (by decide) rfl
  rw [h]
  decide

/-- C2: amended.  In a working directory with no angular.json, no dist
directory or dist/build/www index files, and a readable
public/index.html, detectHTML with devMode = false returns the detection
result for public/index.html with buildDir public, rather than null. -/
theorem detectHTML_prod_public_fallback (P : Parsers) (fs : FS) (content : String)
    (h1 : fsExists fs "angular.json" = false)
    (h2 : fsExists fs "dist" = false)
    (h3 : fsExists fs "dist/index.html" = false)
    (h4 : fsExists fs "build/index.html" = false)
    (h5 : fsExists fs "www/index.html" = false)
    (h6 : fsRead fs "public/index.html" = some content) :
    detectHTML P fs false = some ⟨"public/index.html", "public", cspDetect content⟩ := by
  have h7 : fsExists fs "public/index.html" = true := by
    unfold fsExists
    unfold fsRead at h6
    rw [h6]
    simp
  have hg : getAngularBuildPaths P fs = [] := by
    unfold getAngularBuildPaths
    simp [h1]
  have hplain : ∀ p : String, (String.toList p).any (fun c => c = '*') = false →
      fsExists fs p = false → findHTMLFile fs p = none := by
    intro p hstar hex
    unfold findHTMLFile
    rw [if_neg (by rw [hstar]; simp)]
    rw [if_neg (by rw [hex]; simp)]
  have hglob : findHTMLFile fs "dist/*/index.html" = none := by
    unfold findHTMLFile
    rw [if_pos (by decide)]
    unfold searchGlobPattern
    have hsp : (splitOnChar '*' (String.toList "dist/*/index.html")).map
        (fun l => (⟨l⟩ : String)) = ["dist/", "/index.html"] := by decide
    rw [hsp]
    have hss : stripTrailingSlash "dist/" = "dist" := by decide
    simp [hss, h2]
  have hfind : findHTMLFile fs "public/index.html" =
      some ⟨"public/index.html", "public", cspDetect content⟩ := by
    unfold findHTMLFile createHTMLDetectionResult fsReadD
    rw [h6]
    have hd : dirname "public/index.html" = "public" := by decide
    simp [hd, h7, (by decide : (String.toList "public/index.html").any
      (fun c => c = '*') = false)]
  unfold detectHTML getHTMLSearchPaths
  rw [if_neg (by simp)]
  rw [hg]
  simp only [List.nil_append, HTML_SEARCH_PATHS_PROD, List.findSome?_cons, hglob,
    hplain "dist/index.html" (by decide) h3,
    hplain "build/index.html" (by decide) h4,
    hplain "www/index.html" (by decide) h5,
    hfind]

/-- C2 witness: the amended theorem applied to a concrete one-file
directory. -/
theorem detectHTML_prod_public_fallback_witness :
    detectHTML failingParsers
      ⟨[("public/index.html", "<html><body></body></html>")], []⟩ false =
      some ⟨"public/index.html", "public", false⟩ := by
  have h := detectHTML_prod_public_fallback failingParsers
    ⟨[("public/index.html", "<html><body></body></html>")], []⟩
    "<html><body></body></html>"
    (by decide) (by decide) (by decide) (by decide) (by decide) (by decide)
  rw [h]
  decide

theorem filterValid_fold_invariant (l : List (String × String)) :
    ∀ acc : List (String × String),
      (∀ K v, objGet acc K = some v → isValidEnvironmentValue v = true) →
      ∀ K v, objGet (l.foldl (fun acc2 e =>
          if isValidEnvironmentValue e.snd then objSet acc2 e.fst e.snd else acc2) acc)
        K = some v → isValidEnvironmentValue v = true := by
  induction l with
  | nil => intro acc hinv K v h; exact hinv K v h
  | cons e rest ih =>
    intro acc hinv K v
    simp only [List.foldl_cons]
    apply ih
    intro K2 v2 h2
    by_cases hval : isValidEnvironmentValue e.snd
    · rw [if_pos hval] at h2
      by_cases hk : K2 = e.fst
      · subst hk
        rw [objGet_objSet_self] at h2
        obtain rfl : e.snd = v2 := Option.some_inj.mp h2
        exact hval
      · rw [objGet_objSet_ne _ _ _ _ hk] at h2
        exact hinv K2 v2 h2
    · rw [if_neg hval] at h2
      exact hinv K2 v2 h2

theorem injector_fold_invariant (penv : List (String × String)) :
    ∀ (fw : List (String × String)) (acc : List (String × String)),
      (∀ K v, objGet acc K = some v →
        (!(v = "") && !(v = "undefined") && !(v = "null")) = true ∨
          objGet penv K = some v) →
      ∀ K v, objGet (fw.foldl (fun acc2 e =>
          if !(e.snd = "") && !(e.snd = "undefined") && !(e.snd = "null") then
            objSet acc2 e.fst e.snd
          else acc2) acc) K = some v →
        (!(v = "") && !(v = "undefined") && !(v = "null")) = true ∨
          objGet penv K = some v := by
  intro fw
  induction fw with
  | nil => intro acc hinv K v h; exact hinv K v h
  | cons e rest ih =>
    intro acc hinv K v
    simp only [List.foldl_cons]
    apply ih
    intro K2 v2 h2
    by_cases hval : (!(e.snd = "") && !(e.snd = "undefined") && !(e.snd = "null")) = true
    · rw [if_pos hval] at h2
      by_cases hk : K2 = e.fst
      · subst hk
        rw [objGet_objSet_self] at h2
        obtain rfl : e.snd = v2 := Option.some_inj.mp h2
        exact Or.inl hval
      · rw [objGet_objSet_ne _ _ _ _ hk] at h2
        exact hinv K2 v2 h2
    · rw [if_neg hval] at h2
      exact hinv K2 v2 h2

/-- C9: amended.  Every entry returned by the environment module entry
point passes the validity filter; every entry returned by
CSPInjector.loadEnvironmentVariables either passes the injector local
empty/undefined/null filter or is a verbatim copy of a process
environment entry. -/
theorem loadEnvironmentVariables_filter_invariant :
    (∀ (penv : List (String × String)) (fs : FS) (P : Parsers) (root : String)
      (thp : Option String) (K v : String),
      objGet (loadEnvironmentVariables penv fs P root thp) K = some v →
      isValidEnvironmentValue v = true) ∧
    (∀ (penv : List (String × String)) (fs : FS) (P : Parsers) (root K v : String),
      NodupKeys penv →
      objGet (CSPInjector_loadEnvironmentVariables penv fs P root) K = some v →
      (!(v = "") && !(v = "undefined") && !(v = "null")) = true ∨
        objGet penv K = some v) := by
  constructor
  · intro penv fs P root thp K v h
    unfold loadEnvironmentVariables at h
    unfold filterValidEnvironmentVariables at h
    exact filterValid_fold_invariant _ [] (by intro K2 v2 h2; simp [objGet] at h2) K v h
  · intro penv fs P root K v hnd h
    unfold CSPInjector_loadEnvironmentVariables at h
    apply injector_fold_invariant penv _ (objAssign [] penv) _ K v h
    intro K2 v2 h2
    rw [objGet_objAssign [] penv K2 hnd] at h2
    right
    cases hp : objGet penv K2 with
    | none => rw [hp] at h2; simp [objGet] at h2
    | some w => rw [hp] at h2; simp [objGet] at h2; rw [h2]

/-- C9 witness: the invariant applied at a one-entry process
environment. -/
theorem loadEnvironmentVariables_filter_invariant_witness :
    (!(("x" : String) = "") && !(("x" : String) = "undefined") &&
      !(("x" : String) = "null")) = true ∨
    objGet [("A", "x")] "A" = some "x" :=
  loadEnvironmentVariables_filter_invariant.2 [("A", "x")] ⟨[], []⟩ failingParsers
    "p" "A" "x" (by unfold NodupKeys; decide) (by decide)

theorem nodupKeys_nil : NodupKeys ([] : List (String × String)) := by
  simp [NodupKeys]

theorem parseEnvFile_nodup (fs : FS) (p pfx : String) :
    NodupKeys (parseEnvFile fs p pfx) := by
  unfold parseEnvFile
  split
  · exact nodupKeys_nil
  next content h =>
    refine nodupKeys_foldl _ ?_ _ _ nodupKeys_nil
    intro a x ha
    dsimp only
    by_cases h1 : strTrim x = ""
    · simpa [h1] using ha
    · rw [if_neg h1]
      by_cases h2 : strStartsWith "#" (strTrim x) = true
      · simpa [h2] using ha
      · rw [if_neg (by simp [h2])]
        cases hp : parseEnvLine (strTrim x) with
        | none => simpa using ha
        | some kv =>
          obtain ⟨k, v⟩ := kv
          by_cases h3 : strStartsWith pfx k = true
          · simp only [h3, if_true]
            exact nodupKeys_objSet _ _ _ ha
          · simpa [h3] using ha

/-- The value a single env file contributes for a key: the VITE_ parse
overrides the REACT_APP_ parse of the same file, as the two consecutive
assigns do. -/
def fileContrib (fs : FS) (p K : String) : Option String :=
  (objGet (parseEnvFile fs p "VITE_") K).or (objGet (parseEnvFile fs p "REACT_APP_") K)

theorem loadReact_step_get (fs : FS) (acc : List (String × String)) (p K : String) :
    objGet (if fsExists fs p then
        objAssign (objAssign acc (parseEnvFile fs p "REACT_APP_"))
          (parseEnvFile fs p "VITE_")
      else acc) K = (fileContrib fs p K).or (objGet acc K) := by
  by_cases hex : fsExists fs p = true
  · rw [if_pos hex]
    rw [objGet_objAssign _ _ _ (parseEnvFile_nodup fs p "VITE_"),
      objGet_objAssign _ _ _ (parseEnvFile_nodup fs p "REACT_APP_")]
    unfold fileContrib
    cases objGet (parseEnvFile fs p "VITE_") K <;>
      cases objGet (parseEnvFile fs p "REACT_APP_") K <;> simp [Option.or]
  · rw [if_neg hex]
    have hread : fsRead fs p = none := by
      unfold fsExists at hex
      cases hr : fsRead fs p with
      | none => rfl
      | some c =>
        unfold fsRead at hr
        rw [hr] at hex
        simp at hex
    have hv : parseEnvFile fs p "VITE_" = [] := by
      unfold parseEnvFile
      rw [hread]
    have hr2 : parseEnvFile fs p "REACT_APP_" = [] := by
      unfold parseEnvFile
      rw [hread]
    unfold fileContrib
    rw [hv, hr2]
    simp [objGet]

theorem overlay_get (penv : List (String × String)) (Q : String → Bool) :
    ∀ (init : List (String × String)) (K : String), NodupKeys penv →
      objGet (penv.foldl
        (fun acc e => if Q e.fst then objSet acc e.fst e.snd else acc) init) K =
      (if Q K then objGet penv K else none).or (objGet init K) := by
  induction penv with
  | nil => intro init K _; simp [objGet]
  | cons e rest ih =>
    intro init K hnd
    obtain ⟨k0, v0⟩ := e
    simp only [NodupKeys, List.map_cons, List.nodup_cons] at hnd
    simp only [List.foldl_cons]
    rw [ih _ K hnd.2]
    by_cases hk : K = k0
    · have hnone : objGet rest K = none := by
        rw [hk]
        exact objGet_eq_none_of_not_mem rest k0 hnd.1
      have hcons : objGet ((k0, v0) :: rest) K = some v0 := by
        simp [objGet, hk.symm]
      by_cases hq : Q K = true
      · have hq0 : Q k0 = true := by rw [← hk]; exact hq
        rw [if_pos hq0, hnone, hcons, if_pos hq, if_pos hq, ← hk,
          objGet_objSet_self]
        simp [Option.or]
      · have hqf : Q K = false := by simpa using hq
        have hq0n : ¬ Q k0 = true := by rw [← hk]; exact hq
        rw [if_neg hq, if_neg hq, if_neg hq0n]
    · have hstep : objGet (if Q k0 = true then objSet init k0 v0 else init) K =
          objGet init K := by
        by_cases hq : Q k0 = true
        · rw [if_pos hq, objGet_objSet_ne _ _ _ _ hk]
        · rw [if_neg hq]
      have hcons : objGet ((k0, v0) :: rest) K = objGet rest K := by
        have hne : ¬ k0 = K := fun h => hk h.symm
        simp [objGet, hne]
      rw [hstep, hcons]

/-- C5: amended.  The value loadReactEnv returns for a key is resolved in
precedence order: a prefixed process-environment entry first, then the
contributions of .env.<mode>.local, .env.local, .env.<mode> and .env in
that order, later-read files taking precedence over earlier ones.  In
particular .env.local wins over .env exactly when no later source defines
the key. -/
theorem loadReactEnv_precedence (penv : List (String × String)) (fs : FS)
    (root K : String) (hnd : NodupKeys penv) :
    objGet (loadReactEnv penv fs root) K =
      ((if strStartsWith "REACT_APP_" K || strStartsWith "VITE_" K then
          objGet penv K else none).or
       ((fileContrib fs (pathJoin root (".env." ++ envMode penv ++ ".local")) K).or
        ((fileContrib fs (pathJoin root ".env.local") K).or
         ((fileContrib fs (pathJoin root (".env." ++ envMode penv)) K).or
          (fileContrib fs (pathJoin root ".env") K))))) := by
  unfold loadReactEnv
  dsimp only
  rw [overlay_get penv
    (fun k => strStartsWith "REACT_APP_" k || strStartsWith "VITE_" k) _ K hnd]
  simp only [List.foldl_cons, List.foldl_nil]
  rw [loadReact_step_get, loadReact_step_get, loadReact_step_get, loadReact_step_get]
  simp [objGet, Option.or_assoc]

/-- C5 witness: the precedence theorem applied at a concrete process
environment and filesystem, the process entry overriding the file. -/
theorem loadReactEnv_precedence_witness :
    objGet (loadReactEnv [("VITE_K", "pv")] ⟨[("p/.env", "VITE_K=file")], []⟩ "p")
      "VITE_K" = some "pv" := by
  have h := loadReactEnv_precedence [("VITE_K", "pv")]
    ⟨[("p/.env", "VITE_K=file")], []⟩ "p" "VITE_K" (by unfold NodupKeys; decide)
  rw [h]
  decide

theorem toUpper_ne_underscore_of_isLower {c : Char} (h : c.isLower = true) :
    ¬ c.toUpper = '_' := by
  simp [Char.isLower] at h
  obtain ⟨h1, h2⟩ := h
  have hn1 : 97 ≤ c.toNat := h1
  have hn2 : c.toNat ≤ 122 := h2
  intro heq
  unfold Char.toUpper at heq
  rw [if_pos ⟨hn1, hn2⟩] at heq
  generalize hg : c.toNat - 32 = m at heq
  have hb1 : 65 ≤ m := by omega
  have hb2 : m ≤ 90 := by omega
  interval_cases m <;> exact absurd heq (by decide)

theorem toUpper_of_isUpper {c : Char} (h : c.isUpper = true) : c.toUpper = c := by
  simp [Char.isUpper] at h
  have hn2 : c.toNat ≤ 90 := h.2
  unfold Char.toUpper
  rw [if_neg]
  intro hcond
  omega

theorem stripLeadingUnderscore_noop (x : Char) (xs : List Char) (h : ¬ x = '_') :
    stripLeadingUnderscore (x :: xs) = x :: xs := by
  unfold stripLeadingUnderscore
  split
  next cs2 heq =>
    injection heq with h1 h2
    exact absurd h1 h
  · rfl

/-- The key translation as the specification words it: the upper-cased
name with an underscore inserted before each originally-uppercase
letter. -/
def specCamelKey (key : String) : String :=
  ⟨key.toList.flatMap (fun d => if d.isUpper then ['_', d] else [d.toUpper])⟩

theorem insert_map_flatMap (l : List Char) :
    (insertUnderscores l).map Char.toUpper =
      l.flatMap (fun d => if d.isUpper then ['_', d] else [d.toUpper]) := by
  induction l with
  | nil => rfl
  | cons d ds ih =>
    by_cases hd : d.isUpper = true
    · simp only [insertUnderscores, hd, if_true, List.map_cons, List.flatMap_cons, ih,
        toUpper_of_isUpper hd]
      rw [show Char.toUpper '_' = '_' from by decide]
      simp
    · simp only [insertUnderscores, hd, Bool.false_eq_true, if_false, List.map_cons,
        List.flatMap_cons, ih]
      simp

theorem camel_eq_spec (key : String) (c : Char) (cs : List Char)
    (hl : key.toList = c :: cs) (hc : c.isLower = true) :
    camelCaseToUpperCase key = specCamelKey key := by
  unfold camelCaseToUpperCase specCamelKey
  rw [hl, insert_map_flatMap]
  have hup : c.isUpper = false := by
    cases hu : c.isUpper with
    | false => rfl
    | true =>
      exfalso
      simp [Char.isLower] at hc
      simp [Char.isUpper] at hu
      have hn1 : 97 ≤ c.toNat := hc.1
      have hn2 : c.toNat ≤ 90 := hu.2
      omega
  simp only [List.flatMap_cons, hup, Bool.false_eq_true, if_false]
  rw [List.singleton_append]
  rw [stripLeadingUnderscore_noop _ _ (toUpper_ne_underscore_of_isLower hc)]

theorem processProperty_some {k v K V : String}
    (h : processProperty k v = some (K, V)) :
    V = v ∧ ¬ v = "false" ∧ ¬ v = "true" := by
  unfold processProperty at h
  split at h
  next hcond =>
    simp only [Option.some_inj, Prod.mk.injEq] at h
    obtain ⟨h1, h2⟩ := h
    simp only [Bool.and_eq_true, Bool.not_eq_eq_eq_not, Bool.not_true, decide_eq_false_iff_not] at hcond
    exact ⟨h2.symm, hcond.1.2, hcond.2⟩
  · simp at h


theorem angular_fold_no_bool (props : List (String × String)) :
    ∀ acc : List (String × String),
      (∀ K v, objGet acc K = some v → ¬ v = "true" ∧ ¬ v = "false") →
      ∀ K v, objGet (props.foldl (fun acc2 kv =>
          match processProperty kv.fst kv.snd with
          | some (k2, v2) => objSet acc2 k2 v2
          | none => acc2) acc) K = some v → ¬ v = "true" ∧ ¬ v = "false" := by
  induction props with
  | nil => intro acc hinv K v h; exact hinv K v h
  | cons kv rest ih =>
    intro acc hinv K v
    simp only [List.foldl_cons]
    apply ih
    intro K2 v2 h2
    cases hp : processProperty kv.fst kv.snd with
    | none => rw [hp] at h2; exact hinv K2 v2 h2
    | some kv2 =>
      obtain ⟨k3, v3⟩ := kv2
      rw [hp] at h2
      by_cases hk : K2 = k3
      · subst hk
        rw [objGet_objSet_self] at h2
        obtain rfl : v3 = v2 := Option.some_inj.mp h2
        obtain ⟨he, hf, ht⟩ := processProperty_some hp
        rw [he]
        exact ⟨ht, hf⟩
      · rw [objGet_objSet_ne _ _ _ _ hk] at h2
        exact hinv K2 v2 h2

/-- C7: confirmed.  A camelCase key (nonempty, lower-case first letter)
with a valid non-boolean string value is emitted under the Angular prefix
plus the specification translation (an underscore before each
originally-uppercase letter, then upper-cased, e.g. apiUrl to
NG_API_URL); and no entry produced from an environment file ever carries
the value true or false, because boolean-valued properties are
discarded. -/
theorem parseAngularEnv_key_translation :
    (∀ (key value : String) (c : Char) (cs : List Char),
      key.toList = c :: cs → c.isLower = true →
      isValidEnvironmentValue value = true → ¬ value = "true" → ¬ value = "false" →
      processProperty key value = some ("NG_" ++ specCamelKey key, value)) ∧
    (∀ (content K v : String),
      objGet (parseAngularEnvContent content) K = some v →
      ¬ v = "true" ∧ ¬ v = "false") := by
  constructor
  · intro key value c cs hl hc hval hvt hvf
    have hkey : ¬ key = "" := by
      intro h
      rw [h] at hl
      simp at hl
    have hsnake : isUpperSnakeKey key = false := by
      unfold isUpperSnakeKey
      rw [hl]
      have hcf : (c.isUpper || c.isDigit || c = '_') = false := by
        cases hu : (c.isUpper || c.isDigit || c = '_') with
        | false => rfl
        | true =>
          exfalso
          simp [Char.isLower] at hc
          have hn1 : 97 ≤ c.toNat := hc.1
          have hn2 : c.toNat ≤ 122 := hc.2
          simp [Char.isUpper, Char.isDigit] at hu
          rcases hu with (hu | hu) | hu
          · have hu1 : 65 ≤ c.toNat := hu.1
            have hu2 : c.toNat ≤ 90 := hu.2
            omega
          · have hu1 : 48 ≤ c.toNat := hu.1
            have hu2 : c.toNat ≤ 57 := hu.2
            omega
          · rw [hu] at hn1
            have h95 : ('_' : Char).toNat = 95 := by decide
            omega
      simp [List.all_cons, hcf]
    unfold processProperty
    rw [if_pos (by simp [hkey, hval, hvt, hvf])]
    unfold angularEnvKey
    rw [hsnake]
    simp only [Bool.false_eq_true, if_false]
    rw [camel_eq_spec key c cs hl hc]
  · intro content K v h
    unfold parseAngularEnvContent at h
    split at h
    · simp [objGet] at h
    next inner hexp =>
      exact angular_fold_no_bool (scanProps inner) []
        (by intro K2 v2 h2; simp [objGet] at h2) K v h

/-- C7 witness: the translation theorem applied to the apiUrl example. -/
theorem parseAngularEnv_key_translation_witness :
    processProperty "apiUrl" "https://x" = some ("NG_API_URL", "https://x") := by
  have h := parseAngularEnv_key_translation.1 "apiUrl" "https://x" 'a'
    (String.toList "piUrl") (by decide) (by decide) (by decide) (by decide) (by decide)
  rw [h]
  decide

/-- The literal text of a placeholder with the given name. -/
def phChars (name : List Char) : List Char := '{' :: '{' :: (name ++ ['}', '}'])

/-- pat occurs as a contiguous substring of s. -/
def Occurs (pat s : List Char) : Prop := ∃ l r, s = l ++ pat ++ r

theorem occurs_append_left (pat x s : List Char) (h : Occurs pat s) :
    Occurs pat (x ++ s) := by
  obtain ⟨l, r, hl⟩ := h
  exact ⟨x ++ l, r, by rw [hl]; simp [List.append_assoc]⟩

theorem occurs_cons (pat : List Char) (c : Char) (s : List Char) (h : Occurs pat s) :
    Occurs pat (c :: s) := occurs_append_left pat [c] s h

theorem substPlaceholders_cons (f : String → Option String) (c : Char) (cs : List Char) :
    substPlaceholders f (c :: cs) =
      match matchPlaceholder (c :: cs) with
      | some (name, rest) =>
        match f ⟨name⟩ with
        | some v => v.toList ++ substPlaceholders f rest
        | none => '{' :: '{' :: (name ++ '}' :: '}' :: substPlaceholders f rest)
      | none => c :: substPlaceholders f cs := by
  rw [substPlaceholders.eq_def]
  split
  next heq => exact absurd heq (by simp)
  next c2 cs2 heq =>
    injection heq with h1 h2
    subst h1; subst h2
    split
    next name rest heq2 => rw [heq2]
    next heq2 => rw [heq2]

theorem scanNames_cons (c : Char) (cs : List Char) :
    scanNames (c :: cs) =
      match matchPlaceholder (c :: cs) with
      | some (name, rest) => (⟨name⟩ : String) :: scanNames rest
      | none => scanNames cs := by
  rw [scanNames.eq_def]
  split
  next heq => exact absurd heq (by simp)
  next c2 cs2 heq =>
    injection heq with h1 h2
    subst h1; subst h2
    split
    next name rest heq2 => rw [heq2]
    next heq2 => rw [heq2]

theorem subst_id_of_unresolved (f : String → Option String) :
    ∀ (N : Nat) (t : List Char), t.length ≤ N →
      (∀ n ∈ scanNames t, f n = none) → substPlaceholders f t = t := by
  intro N
  induction N with
  | zero =>
    intro t hlen _
    have : t = [] := List.length_eq_zero.mp (Nat.le_zero.mp hlen)
    subst this
    exact substPlaceholders_nil f
  | succ N ih =>
    intro t hlen hnames
    cases t with
    | nil => exact substPlaceholders_nil f
    | cons c cs =>
      rw [substPlaceholders_cons]
      cases hm : matchPlaceholder (c :: cs) with
      | some val =>
        obtain ⟨name, rest⟩ := val
        obtain ⟨hshape, hne, hword⟩ := matchPlaceholder_shape hm
        have hsn : scanNames (c :: cs) = (⟨name⟩ : String) :: scanNames rest := by
          rw [scanNames_cons, hm]
        have hfname : f ⟨name⟩ = none := by
          apply hnames
          rw [hsn]
          simp
        have hrest : substPlaceholders f rest = rest := by
          apply ih
          · have : (c :: cs).length = name.length + 4 + rest.length := by
              rw [hshape]
              simp [List.length_append]
              omega
            simp only [List.length_cons] at this hlen
            omega
          · intro n hn
            apply hnames
            rw [hsn]
            simp [hn]
        simp only [hfname, hrest]
        rw [hshape]
      | none =>
        have hsn : scanNames (c :: cs) = scanNames cs := by
          rw [scanNames_cons, hm]
        have hcs : substPlaceholders f cs = cs := by
          apply ih
          · simp only [List.length_cons] at hlen
            omega
          · intro n hn
            apply hnames
            rw [hsn]
            exact hn
        simp only [hcs]

theorem phChars_word_split (pname : List Char) (hpne : pname ≠ [])
    (hpw : ∀ c ∈ pname, wordChar c = true) :
    ∀ (w m l2 r : List Char), (∀ c ∈ w, wordChar c = true) →
      m ++ phChars pname ++ l2 = w ++ '}' :: '}' :: r →
      ∃ m2, m = w ++ '}' :: '}' :: m2 ∧ r = m2 ++ phChars pname ++ l2 := by
  intro w
  induction w with
  | nil =>
    intro m l2 r _ heq
    simp only [List.nil_append] at heq
    match m, heq with
    | [], heq =>
      simp only [List.nil_append, phChars] at heq
      injection heq with h1 _
      exact absurd h1 (by decide)
    | [x], heq =>
      simp only [List.cons_append, List.nil_append, phChars] at heq
      injection heq with h1 h2
      injection h2 with h3 _
      exact absurd h3 (by decide)
    | x :: y :: m2, heq =>
      simp only [List.cons_append] at heq
      injection heq with h1 h2
      injection h2 with h3 h4
      subst h1; subst h3
      exact ⟨m2, rfl, h4.symm⟩
  | cons a w2 ihw =>
    intro m l2 r hw heq
    have ha : wordChar a = true := hw a (by simp)
    match m, heq with
    | [], heq =>
      simp only [List.nil_append, phChars, List.cons_append] at heq
      injection heq with h1 _
      rw [← h1] at ha
      exact absurd ha (by decide)
    | b :: m1, heq =>
      simp only [List.cons_append] at heq
      injection heq with h1 h2
      subst h1
      obtain ⟨m2, hm2, hr⟩ := ihw m1 l2 r (fun c hc => hw c (by simp [hc])) h2
      exact ⟨m2, by rw [hm2]; simp, hr⟩

theorem occurs_preserved (f : String → Option String) (pname : List Char)
    (hpne : pname ≠ []) (hpw : ∀ c ∈ pname, wordChar c = true)
    (hf : f ⟨pname⟩ = none) :
    ∀ (N : Nat) (t : List Char), t.length ≤ N → Occurs (phChars pname) t →
      Occurs (phChars pname) (substPlaceholders f t) := by
  intro N
  induction N with
  | zero =>
    intro t hlen hocc
    have ht : t = [] := List.length_eq_zero.mp (Nat.le_zero.mp hlen)
    subst ht
    obtain ⟨l, r, hl⟩ := hocc
    exact absurd hl.symm (by simp [phChars])
  | succ N ih =>
    intro t hlen hocc
    obtain ⟨pre, post, heqt⟩ := hocc
    cases pre with
    | nil =>
      simp only [List.nil_append] at heqt
      have hform : t = '{' :: '{' :: (pname ++ '}' :: '}' :: post) := by
        rw [heqt]
        simp [phChars]
      have hm : matchPlaceholder t = some (pname, post) := by
        rw [hform]
        exact matchPlaceholder_aligned pname post hpne hpw
      subst hform
      rw [substPlaceholders_cons, hm]
      dsimp only
      simp only [hf]
      exact ⟨[], substPlaceholders f post, by simp [phChars]⟩
    | cons c pre1 =>
      have heqt2 : t = c :: (pre1 ++ phChars pname ++ post) := by
        rw [heqt]
        simp
      cases hm : matchPlaceholder t with
      | none =>
        subst heqt2
        rw [substPlaceholders_cons, hm]
        apply occurs_cons
        apply ih
        · simp only [List.length_cons] at hlen
          omega
        · exact ⟨pre1, post, rfl⟩
      | some val =>
        obtain ⟨name2, rest2⟩ := val
        obtain ⟨hshape, hne2, hword2⟩ := matchPlaceholder_shape hm
        have hlen2 : rest2.length ≤ N := by
          have : t.length = name2.length + 4 + rest2.length := by
            rw [hshape]
            simp [List.length_append]
            omega
          omega
        -- relate the occurrence to the match region
        rw [heqt2] at hshape
        injection hshape with hc hshape2
        cases pre1 with
        | nil =>
          exfalso
          simp only [List.nil_append, phChars, List.cons_append] at hshape2
          injection hshape2 with hd hshape3
          match name2, hne2, hshape3 with
          | n0 :: ntail, _, hshape3 =>
            injection hshape3 with hn0 _
            have := hword2 n0 (by simp)
            rw [← hn0] at this
            exact absurd this (by decide)
        | cons d pre2 =>
          simp only [List.cons_append] at hshape2
          injection hshape2 with hd hshape3
          obtain ⟨m2, hm2, hrest2⟩ :=
            phChars_word_split pname hpne hpw name2 pre2 post rest2 hword2 hshape3
          have hoccr : Occurs (phChars pname) rest2 := ⟨m2, post, hrest2⟩
          have hoccs := ih rest2 hlen2 hoccr
          subst heqt2
          rw [substPlaceholders_cons, hm]
          dsimp only
          cases hv : f ⟨name2⟩ with
          | some v =>
            simp only [hv]
            exact occurs_append_left _ v.toList _ hoccs
          | none =>
            simp only [hv]
            have hph : '{' :: '{' :: (name2 ++ '}' :: '}' :: substPlaceholders f rest2) =
                phChars name2 ++ substPlaceholders f rest2 := by
              simp [phChars]
            rw [hph]
            exact occurs_append_left _ (phChars name2) _ hoccs

/-- C6: amended.  Resolution is idempotent whenever no placeholder left
in the first output has a mapping in V (substituted values can introduce
new resolvable placeholders, which a second pass would substitute); and a
placeholder whose name is absent from V always appears byte-for-byte in
the output. -/
theorem resolveTemplateVariables_amended (V : List (String × String)) (t : String) :
    ((∀ n ∈ scanNames (resolveTemplateVariables t V).toList, objGet V n = none) →
      resolveTemplateVariables (resolveTemplateVariables t V) V =
        resolveTemplateVariables t V) ∧
    (∀ name : List Char, name ≠ [] → (∀ c ∈ name, wordChar c = true) →
      objGet V ⟨name⟩ = none → Occurs (phChars name) t.toList →
      Occurs (phChars name) (resolveTemplateVariables t V).toList) := by
  constructor
  · intro h
    unfold resolveTemplateVariables at h ⊢
    rw [toList_mk] at h
    have := subst_id_of_unresolved (fun n => objGet V n)
      (substPlaceholders (fun n => objGet V n) t.toList).length
      (substPlaceholders (fun n => objGet V n) t.toList) le_rfl h
    rw [toList_mk, this]
  · intro name hne hw hnone hocc
    unfold resolveTemplateVariables
    rw [toList_mk]
    exact occurs_preserved (fun n => objGet V n) name hne hw hnone
      t.toList.length t.toList le_rfl hocc

/-- C6 witness: both amended parts at a concrete template and map. -/
theorem resolveTemplateVariables_amended_witness :
    (resolveTemplateVariables
        (resolveTemplateVariables "\x7b\x7bA\x7d\x7d" [("B", "x")]) [("B", "x")] =
      resolveTemplateVariables "\x7b\x7bA\x7d\x7d" [("B", "x")]) ∧
    Occurs (phChars ['A'])
      ((resolveTemplateVariables "\x7b\x7bA\x7d\x7d" [("B", "x")]).toList) :=
  ⟨(resolveTemplateVariables_amended [("B", "x")] "\x7b\x7bA\x7d\x7d").1 (by decide),
   (resolveTemplateVariables_amended [("B", "x")] "\x7b\x7bA\x7d\x7d").2 ['A']
     (by decide) (by decide) (by decide) ⟨[], [], by decide⟩⟩
